import Mathlib

/-!
Verification of the geometric core of `scripts/sphere/spherical_earth_acoustic.py`:
the surface-intersection solver `calculate_surface_intersection` and the ray
depth-profile sampler `calculate_ray_depth_profile`.  Python floats are embedded
as real numbers; numpy array pipelines are embedded as `List ℝ` maps.
-/

open Real

/-- Embedding of `calculate_surface_intersection(r_source, angle_rad, r_earth)`
(lines 32-91 of the script).  Returns the pair `(range_m, central_angle)`;
the invalid outcome is the sentinel pair `(-1, 0)`. -/
noncomputable def calculate_surface_intersection (r_source angle_rad r_earth : ℝ) : ℝ × ℝ :=
  let r_effective := r_source * Real.cos angle_rad
  if r_effective ≤ 0 ∨ r_effective > r_earth then (-1, 0)
  else
    let cos_central := r_effective / r_earth
    if cos_central < -1 ∨ cos_central > 1 then (-1, 0)
    else
      let central_angle := Real.arccos cos_central
      (r_earth * central_angle, central_angle)

/-- Evaluation of the solver on the invalid branch: when the effective radius is
nonpositive or exceeds the Earth radius, the sentinel `(-1, 0)` is returned. -/
theorem surface_intersection_of_invalid {r a e : ℝ}
    (h : r * Real.cos a ≤ 0 ∨ r * Real.cos a > e) :
    calculate_surface_intersection r a e = (-1, 0) := by
  simp only [calculate_surface_intersection]
  rw [if_pos h]

/-- Evaluation of the solver on the valid branch: with `0 < r_eff ≤ r_earth`
(and `r_earth > 0`) the clamping guard cannot fire and the arccos branch runs. -/
theorem surface_intersection_of_valid {r a e : ℝ} (he : 0 < e)
    (h1 : 0 < r * Real.cos a) (h2 : r * Real.cos a ≤ e) :
    calculate_surface_intersection r a e =
      (e * Real.arccos (r * Real.cos a / e), Real.arccos (r * Real.cos a / e)) := by
  simp only [calculate_surface_intersection]
  rw [if_neg, if_neg]
  · push_neg
    constructor
    · linarith [div_pos h1 he]
    · exact div_le_one_of_le₀ h2 he.le
  · push_neg
    exact ⟨h1, h2⟩

/-- C2: `calculate_surface_intersection` reports the invalid sentinel
`range_m = -1` exactly when the effective radius `r_source * cos(angle)` is
nonpositive or exceeds `r_earth`; it never signals failure any other way
(the embedded function is total). -/
theorem C2_invalid_iff (r a e : ℝ) (hr : 0 < r) (he : 0 < e)
    (ha1 : -(π / 2) ≤ a) (ha2 : a ≤ π / 2) :
    (calculate_surface_intersection r a e).1 = -1 ↔
      (r * Real.cos a ≤ 0 ∨ r * Real.cos a > e) := by
  by_cases h : r * Real.cos a ≤ 0 ∨ r * Real.cos a > e
  · rw [surface_intersection_of_invalid h]
    simpa using h
  · push_neg at h
    rw [surface_intersection_of_valid he h.1 h.2]
    have hnn : 0 ≤ e * Real.arccos (r * Real.cos a / e) :=
      mul_nonneg he.le (Real.arccos_nonneg _)
    constructor
    · intro habs
      simp only at habs
      linarith
    · intro habs
      rcases habs with h' | h'
      · linarith [h.1]
      · linarith [h.2]

/-- Witness for C2 at `r_source = 1`, `angle = 0`, `r_earth = 1`. -/
theorem C2_invalid_iff_witness :
    (calculate_surface_intersection 1 0 1).1 = -1 ↔
      ((1 : ℝ) * Real.cos 0 ≤ 0 ∨ (1 : ℝ) * Real.cos 0 > 1) :=
  C2_invalid_iff 1 0 1 (by norm_num) (by norm_num)
    (by linarith [Real.pi_pos]) (by linarith [Real.pi_pos])

/-- C3: on every valid result (`range_m ≠ -1`) the solver guarantees
`range_m ≥ 0`, `central_angle ∈ [0, π/2]`, and `range_m = 0` exactly when the
effective radius equals `r_earth`. -/
theorem C3_valid_output (r a e : ℝ) (hr : 0 < r) (he : 0 < e)
    (ha1 : -(π / 2) ≤ a) (ha2 : a ≤ π / 2)
    (hvalid : (calculate_surface_intersection r a e).1 ≠ -1) :
    0 ≤ (calculate_surface_intersection r a e).1 ∧
    0 ≤ (calculate_surface_intersection r a e).2 ∧
    (calculate_surface_intersection r a e).2 ≤ π / 2 ∧
    ((calculate_surface_intersection r a e).1 = 0 ↔ r * Real.cos a = e) := by
  have h : ¬(r * Real.cos a ≤ 0 ∨ r * Real.cos a > e) := by
    intro habs
    exact hvalid (by rw [surface_intersection_of_invalid habs])
  push_neg at h
  rw [surface_intersection_of_valid he h.1 h.2]
  have hq0 : 0 ≤ r * Real.cos a / e := (div_pos h.1 he).le
  have hq1 : r * Real.cos a / e ≤ 1 := div_le_one_of_le₀ h.2 he.le
  refine ⟨mul_nonneg he.le (Real.arccos_nonneg _), Real.arccos_nonneg _,
    Real.arccos_le_pi_div_two.mpr hq0, ?_⟩
  constructor
  · intro h0
    have harc : Real.arccos (r * Real.cos a / e) = 0 := by
      rcases mul_eq_zero.mp h0 with h' | h'
      · exact absurd h' (ne_of_gt he)
      · exact h'
    have hge : 1 ≤ r * Real.cos a / e := Real.arccos_eq_zero.mp harc
    have : r * Real.cos a / e = 1 := le_antisymm hq1 hge
    field_simp at this
    linarith
  · intro heq
    rw [heq, div_self (ne_of_gt he), Real.arccos_one, mul_zero]

/-- Witness for C3 at `r_source = 1`, `angle = 0`, `r_earth = 1`
(a valid call: the ray is tangent at the surface, range 0). -/
theorem C3_valid_output_witness :
    0 ≤ (calculate_surface_intersection 1 0 1).1 ∧
    0 ≤ (calculate_surface_intersection 1 0 1).2 ∧
    (calculate_surface_intersection 1 0 1).2 ≤ π / 2 ∧
    ((calculate_surface_intersection 1 0 1).1 = 0 ↔ (1 : ℝ) * Real.cos 0 = 1) :=
  C3_valid_output 1 0 1 (by norm_num) (by norm_num)
    (by linarith [Real.pi_pos]) (by linarith [Real.pi_pos])
    (by
      rw [surface_intersection_of_valid (by norm_num) (by norm_num) (by norm_num)]
      simp [Real.arccos_one])

/-- C8: for a horizontal launch the central angle is `arccos (r_source / r_earth)`,
and from the surface itself (`r_source = r_earth`) both range and central angle
are zero. -/
theorem C8_horizontal (r e : ℝ) (hr : 0 < r) (hre : r ≤ e) :
    (calculate_surface_intersection r 0 e).2 = Real.arccos (r / e) ∧
    (calculate_surface_intersection e 0 e).1 = 0 ∧
    (calculate_surface_intersection e 0 e).2 = 0 := by
  have he : 0 < e := lt_of_lt_of_le hr hre
  have h1 : 0 < r * Real.cos 0 := by simpa using hr
  have h2 : r * Real.cos 0 ≤ e := by simpa using hre
  have he1 : 0 < e * Real.cos 0 := by simpa using he
  have he2 : e * Real.cos 0 ≤ e := by simp
  refine ⟨?_, ?_, ?_⟩
  · rw [surface_intersection_of_valid he h1 h2]
    simp
  · rw [surface_intersection_of_valid he he1 he2]
    simp [div_self (ne_of_gt he)]
  · rw [surface_intersection_of_valid he he1 he2]
    simp [div_self (ne_of_gt he)]

/-- Witness for C8 at `r_source = 1`, `r_earth = 2`. -/
theorem C8_horizontal_witness :
    (calculate_surface_intersection 1 0 2).2 = Real.arccos (1 / 2) ∧
    (calculate_surface_intersection 2 0 2).1 = 0 ∧
    (calculate_surface_intersection 2 0 2).2 = 0 :=
  C8_horizontal 1 2 (by norm_num) (by norm_num)

/-- C9: a straight-down launch (`angle = π/2`) gives effective radius zero, so
the solver reports the invalid sentinel for every source radius. -/
theorem C9_straight_down (r e : ℝ) (hr : 0 < r) (hre : r ≤ e) :
    calculate_surface_intersection r (π / 2) e = (-1, 0) := by
  apply surface_intersection_of_invalid
  left
  simp [Real.cos_pi_div_two]

/-- Witness for C9 at `r_source = 1`, `r_earth = 1`. -/
theorem C9_straight_down_witness :
    calculate_surface_intersection 1 (π / 2) 1 = (-1, 0) :=
  C9_straight_down 1 1 (by norm_num) (by norm_num)

/-- C7 as stated is false: at `angle = π/2` every call is invalid and returns
`range_m = -1`, so increasing the depth (`d₁ = 0` to `d₂ = 1`, `r_earth = 2`)
does not strictly increase the returned `range_m`. -/
theorem C7_counterexample :
    (0 : ℝ) ≤ 0 ∧ (0 : ℝ) < 1 ∧ (1 : ℝ) < 2 ∧
    ¬ ((calculate_surface_intersection (2 - 1) (π / 2) 2).1 >
        (calculate_surface_intersection (2 - 0) (π / 2) 2).1) := by
  have h1 : calculate_surface_intersection (2 - 1) (π / 2) 2 = (-1, 0) := by
    apply surface_intersection_of_invalid
    left
    simp [Real.cos_pi_div_two]
  have h2 : calculate_surface_intersection (2 - 0) (π / 2) 2 = (-1, 0) := by
    apply surface_intersection_of_invalid
    left
    simp [Real.cos_pi_div_two]
  rw [h1, h2]
  norm_num

/-- C7 amended: with the launch angle strictly inside `(-π/2, π/2)` (so the
effective radius stays positive and both calls are valid), increasing the depth
strictly increases the returned `range_m`, holding angle and Earth radius fixed. -/
theorem C7_range_strict_mono (e a d₁ d₂ : ℝ) (he : 0 < e) (hd₁ : 0 ≤ d₁)
    (h12 : d₁ < d₂) (hd₂ : d₂ < e) (ha1 : -(π / 2) < a) (ha2 : a < π / 2) :
    (calculate_surface_intersection (e - d₁) a e).1 <
      (calculate_surface_intersection (e - d₂) a e).1 := by
  have hc : 0 < Real.cos a := Real.cos_pos_of_mem_Ioo ⟨ha1, ha2⟩
  have hc1 : Real.cos a ≤ 1 := Real.cos_le_one a
  have hr₂ : 0 < e - d₂ := by linarith
  have hr₁ : 0 < e - d₁ := by linarith
  have h1v : 0 < (e - d₁) * Real.cos a := mul_pos hr₁ hc
  have h2v : 0 < (e - d₂) * Real.cos a := mul_pos hr₂ hc
  have h1le : (e - d₁) * Real.cos a ≤ e := by nlinarith
  have h2le : (e - d₂) * Real.cos a ≤ e := by nlinarith
  rw [surface_intersection_of_valid he h1v h1le,
    surface_intersection_of_valid he h2v h2le]
  simp only
  have hq₂mem : (e - d₂) * Real.cos a / e ∈ Set.Icc (-1 : ℝ) 1 := by
    constructor
    · have := (div_pos h2v he).le
      linarith
    · exact div_le_one_of_le₀ h2le he.le
  have hq₁mem : (e - d₁) * Real.cos a / e ∈ Set.Icc (-1 : ℝ) 1 := by
    constructor
    · have := (div_pos h1v he).le
      linarith
    · exact div_le_one_of_le₀ h1le he.le
  have hnum : (e - d₂) * Real.cos a < (e - d₁) * Real.cos a := by nlinarith
  have hlt : (e - d₂) * Real.cos a / e < (e - d₁) * Real.cos a / e :=
    (div_lt_div_iff_of_pos_right he).mpr hnum
  have harc : Real.arccos ((e - d₁) * Real.cos a / e) <
      Real.arccos ((e - d₂) * Real.cos a / e) :=
    Real.strictAntiOn_arccos hq₂mem hq₁mem hlt
  exact mul_lt_mul_of_pos_left harc he

/-- Witness for the amended C7 at `r_earth = 2`, `angle = 0`, depths `0 < 1`. -/
theorem C7_range_strict_mono_witness :
    (calculate_surface_intersection (2 - 0) 0 2).1 <
      (calculate_surface_intersection (2 - 1) 0 2).1 :=
  C7_range_strict_mono 2 0 0 1 (by norm_num) (by norm_num) (by norm_num)
    (by norm_num) (by linarith [Real.pi_pos]) (by linarith [Real.pi_pos])

/-- Embedding of `np.linspace(0, 1, num_points)` as used on line 140 of the
script: for `num_points ≥ 2` the samples are `i / (num_points - 1)`; for
`num_points = 1` numpy returns `[0.0]` (here `0 / 0 = 0`); for `0` the empty
array. -/
noncomputable def linspace01 (num_points : ℕ) : List ℝ :=
  (List.range num_points).map (fun (i : ℕ) => (i : ℝ) / ((num_points : ℝ) - 1))

/-- Embedding of `np.arctan2(y, x)` (line 152 of the script), with numpy's
quadrant conventions; real numbers carry no signed zero, so `arctan2 0 0 = 0`. -/
noncomputable def arctan2 (y x : ℝ) : ℝ :=
  if 0 < x then Real.arctan (y / x)
  else if x < 0 then
    (if 0 ≤ y then Real.arctan (y / x) + π else Real.arctan (y / x) - π)
  else if 0 < y then π / 2
  else if y < 0 then -(π / 2)
  else 0

/-- Tail of `np.argmax`: scans the remaining list keeping the first index of
the running maximum (numpy's first-occurrence tie-breaking). -/
noncomputable def argmaxAux : List ℝ → ℝ → ℕ → ℕ → ℕ
  | [], _, _, best_idx => best_idx
  | v :: rest, best_val, i, best_idx =>
      if best_val < v then argmaxAux rest v (i + 1) i
      else argmaxAux rest best_val (i + 1) best_idx

/-- Embedding of `np.argmax` (line 156 of the script): first index of the
maximum element.  numpy raises on an empty array; the caller guards that case,
so the value at `[]` is never used. -/
noncomputable def argmax : List ℝ → ℕ
  | [] => 0
  | v :: rest => argmaxAux rest v 1 0

/-- Embedding of `calculate_ray_depth_profile(source_depth, beam_angle,
r_source, range_m, central_angle, r_earth, num_points)` (lines 94-160 of the
script).  The numpy array pipeline is embedded pointwise over the sample list;
the result is `(horizontal_ranges, depths_below_surface, max_depth,
max_depth_range)`.  `np.argmax` on an empty array raises `ValueError`
(`num_points = 0`), embedded as `none`. -/
noncomputable def calculate_ray_depth_profile (source_depth beam_angle r_source
    range_m central_angle r_earth : ℝ) (num_points : ℕ) :
    Option (List ℝ × List ℝ × ℝ × ℝ) :=
  let source_angle : ℝ := 0
  let source_x := r_source * Real.cos source_angle
  let source_y := r_source * Real.sin source_angle
  let intersect_angle := central_angle
  let intersect_x := r_earth * Real.cos intersect_angle
  let intersect_y := r_earth * Real.sin intersect_angle
  let t := linspace01 num_points
  let ray_x := t.map (fun ti => source_x + ti * (intersect_x - source_x))
  let ray_y := t.map (fun ti => source_y + ti * (intersect_y - source_y))
  let ray_r := (ray_x.zip ray_y).map (fun p => Real.sqrt (p.1 ^ 2 + p.2 ^ 2))
  let depths_below_surface := ray_r.map (fun r => r_earth - r)
  let ray_angles := (ray_x.zip ray_y).map (fun p => arctan2 p.2 p.1)
  let horizontal_ranges := ray_angles.map (fun a => r_earth * a)
  if depths_below_surface.isEmpty then none
  else
    let max_depth_idx := argmax depths_below_surface
    let max_depth := depths_below_surface.getD max_depth_idx 0
    let max_depth_range := horizontal_ranges.getD max_depth_idx 0
    some (horizontal_ranges, depths_below_surface, max_depth, max_depth_range)

/-- The x-coordinate of the sampled chord point at parameter `t` (derived view
of the `ray_x` pipeline). -/
noncomputable def rayX (r_source central_angle r_earth t : ℝ) : ℝ :=
  r_source * Real.cos 0 + t * (r_earth * Real.cos central_angle - r_source * Real.cos 0)

/-- The y-coordinate of the sampled chord point at parameter `t` (derived view
of the `ray_y` pipeline). -/
noncomputable def rayY (r_source central_angle r_earth t : ℝ) : ℝ :=
  r_source * Real.sin 0 + t * (r_earth * Real.sin central_angle - r_source * Real.sin 0)

/-- Depth below the curved surface of the chord point at parameter `t`
(derived view of `depths_below_surface`). -/
noncomputable def rayDepth (r_source central_angle r_earth t : ℝ) : ℝ :=
  r_earth - Real.sqrt (rayX r_source central_angle r_earth t ^ 2 +
    rayY r_source central_angle r_earth t ^ 2)

/-- Horizontal surface-arc position of the chord point at parameter `t`
(derived view of `horizontal_ranges`). -/
noncomputable def rayRange (r_source central_angle r_earth t : ℝ) : ℝ :=
  r_earth * arctan2 (rayY r_source central_angle r_earth t)
    (rayX r_source central_angle r_earth t)

/-- The depth samples of a profile call, as a map over the parameter grid. -/
noncomputable def depthList (r_source central_angle r_earth : ℝ) (n : ℕ) : List ℝ :=
  (linspace01 n).map (rayDepth r_source central_angle r_earth)

/-- The horizontal-range samples of a profile call, as a map over the grid. -/
noncomputable def rangeList (r_source central_angle r_earth : ℝ) (n : ℕ) : List ℝ :=
  (linspace01 n).map (rayRange r_source central_angle r_earth)

/-- Normal form of the sampler: for `num_points ≥ 1` the call returns the
mapped range and depth lists together with the argmax-selected maximum-depth
pair.  The unused parameters `source_depth`, `beam_angle`, `range_m` vanish. -/
theorem calculate_ray_depth_profile_eq (sd ba rs rm ca e : ℝ) {n : ℕ} (hn : 1 ≤ n) :
    calculate_ray_depth_profile sd ba rs rm ca e n =
      some (rangeList rs ca e n, depthList rs ca e n,
        (depthList rs ca e n).getD (argmax (depthList rs ca e n)) 0,
        (rangeList rs ca e n).getD (argmax (depthList rs ca e n)) 0) := by
  have hlin : linspace01 n ≠ [] := by
    unfold linspace01
    intro h
    rw [List.map_eq_nil_iff, List.range_eq_nil] at h
    omega
  simp only [calculate_ray_depth_profile, List.zip_map', List.map_map]
  rw [if_neg]
  · simp only [depthList, rangeList, rayDepth, rayRange, rayX, rayY,
      List.map_map, Function.comp_def]
    rfl
  · simp only [List.isEmpty_eq_true, List.map_eq_nil_iff]
    exact hlin

/-- The sample grid has exactly `num_points` entries. -/
theorem linspace01_length (n : ℕ) : (linspace01 n).length = n := by
  simp [linspace01]

/-- Every grid value lies in `[0, 1]` (also in the degenerate `n = 1` case,
where the single value is `0`). -/
theorem mem_linspace01 {n : ℕ} {x : ℝ} (hx : x ∈ linspace01 n) : 0 ≤ x ∧ x ≤ 1 := by
  simp only [linspace01, List.mem_map, List.mem_range] at hx
  obtain ⟨i, hi, rfl⟩ := hx
  rcases le_or_lt n 1 with hn | hn
  · have hi0 : i = 0 := by omega
    subst hi0
    norm_num
  · have hden : (0 : ℝ) < (n : ℝ) - 1 := by
      have : (2 : ℝ) ≤ (n : ℝ) := by exact_mod_cast hn
      linarith
    constructor
    · exact div_nonneg (Nat.cast_nonneg i) hden.le
    · rw [div_le_one hden]
      have : (i : ℝ) + 1 ≤ (n : ℝ) := by exact_mod_cast hi
      linarith

/-- The grid value at index `i < n` is `i / (n - 1)`. -/
theorem linspace01_getD (n i : ℕ) (h : i < n) :
    (linspace01 n).getD i 0 = (i : ℝ) / ((n : ℝ) - 1) := by
  simp [linspace01, List.getD, List.getElem?_map, List.getElem?_range, h]

/-- Index `0` of the depth samples is the depth of the chord point at `t = 0`. -/
theorem depthList_getD (rs ca e : ℝ) (n i : ℕ) (h : i < n) :
    (depthList rs ca e n).getD i 0 = rayDepth rs ca e ((i : ℝ) / ((n : ℝ) - 1)) := by
  simp [depthList, linspace01, List.getD, List.getElem?_map, List.getElem?_range, h]

/-- Consecutive grid values come with the bounds `0 ≤ a ≤ b ≤ 1` pairwise. -/
theorem linspace01_pairwise (n : ℕ) :
    (linspace01 n).Pairwise (fun a b => 0 ≤ a ∧ a ≤ b ∧ b ≤ 1) := by
  unfold linspace01
  rw [List.pairwise_map]
  have hbase : (List.range n).Pairwise (· < ·) := List.pairwise_lt_range n
  refine hbase.imp_of_mem ?_
  intro a b ha hb hab
  rw [List.mem_range] at ha hb
  have hn2 : 2 ≤ n := by omega
  have hden : (0 : ℝ) < (n : ℝ) - 1 := by
    have : (2 : ℝ) ≤ (n : ℝ) := by exact_mod_cast hn2
    linarith
  refine ⟨div_nonneg (Nat.cast_nonneg a) hden.le, ?_, ?_⟩
  · exact div_le_div_of_nonneg_right (by exact_mod_cast hab.le) hden.le
  · rw [div_le_one hden]
    have : (b : ℝ) + 1 ≤ (n : ℝ) := by exact_mod_cast hb
    linarith

/-- The value picked by `argmaxAux` dominates the scanned tail and the running
best, provided the lookup function `g` is consistent with the scan. -/
theorem argmaxAux_le (l : List ℝ) : ∀ (bv : ℝ) (i bi : ℕ) (g : ℕ → ℝ),
    g bi = bv → (∀ j, j < l.length → g (i + j) = l.getD j 0) →
    (∀ x ∈ l, x ≤ g (argmaxAux l bv i bi)) ∧ bv ≤ g (argmaxAux l bv i bi) := by
  induction l with
  | nil =>
    intro bv i bi g hg _
    simp only [argmaxAux]
    exact ⟨by intro x hx; simp at hx, le_of_eq hg.symm⟩
  | cons v rest ih =>
    intro bv i bi g hg hrest
    have hr : ∀ j, j < rest.length → g (i + 1 + j) = rest.getD j 0 := by
      intro j hj
      have h := hrest (j + 1) (by simpa using Nat.succ_lt_succ hj)
      rw [List.getD_cons_succ] at h
      rw [← h]
      ring_nf
    simp only [argmaxAux]
    by_cases h : bv < v
    · rw [if_pos h]
      have hgv : g i = v := by
        have h0 := hrest 0 (by simp)
        simpa using h0
      obtain ⟨h1, h2⟩ := ih v (i + 1) i g hgv hr
      refine ⟨?_, le_trans h.le h2⟩
      intro x hx
      rcases List.mem_cons.mp hx with rfl | hx'
      · exact h2
      · exact h1 x hx'
    · rw [if_neg h]
      push_neg at h
      obtain ⟨h1, h2⟩ := ih bv (i + 1) bi g hg hr
      refine ⟨?_, h2⟩
      intro x hx
      rcases List.mem_cons.mp hx with rfl | hx'
      · exact le_trans h h2
      · exact h1 x hx'

/-- The element selected by `argmax` dominates every element of the list. -/
theorem getD_argmax_ge (l : List ℝ) : ∀ x ∈ l, x ≤ l.getD (argmax l) 0 := by
  cases l with
  | nil => intro x hx; simp at hx
  | cons v rest =>
    have hbase : (fun k => (v :: rest).getD k 0) 0 = v := by simp
    have hrest : ∀ j, j < rest.length →
        (fun k => (v :: rest).getD k 0) (1 + j) = rest.getD j 0 := by
      intro j hj
      simp only [Nat.add_comm 1 j, List.getD_cons_succ]
    obtain ⟨h1, h2⟩ := argmaxAux_le rest v 1 0 (fun k => (v :: rest).getD k 0) hbase hrest
    intro x hx
    rcases List.mem_cons.mp hx with rfl | hx'
    · simpa [argmax] using h2
    · simpa [argmax] using h1 x hx'

/-- At `t = 0` the chord point is the source `(r_source, 0)`, so its depth is
`r_earth - r_source`. -/
theorem rayDepth_zero (rs ca e : ℝ) (h : 0 ≤ rs) : rayDepth rs ca e 0 = e - rs := by
  simp only [rayDepth, rayX, rayY, Real.cos_zero, Real.sin_zero, mul_one, mul_zero,
    zero_mul, add_zero, zero_add]
  rw [show rs ^ 2 + 0 ^ 2 = rs ^ 2 by ring, Real.sqrt_sq h]

/-- At `t = 1` the chord point is the intersection point on the surface, so its
depth is `0`. -/
theorem rayDepth_one (rs ca e : ℝ) (he : 0 ≤ e) : rayDepth rs ca e 1 = 0 := by
  have hsc := Real.sin_sq_add_cos_sq ca
  have hxy : rayX rs ca e 1 ^ 2 + rayY rs ca e 1 ^ 2 = e ^ 2 := by
    simp only [rayX, rayY, Real.cos_zero, Real.sin_zero, mul_one, mul_zero, one_mul,
      zero_add]
    linear_combination e ^ 2 * hsc
  rw [rayDepth, hxy, Real.sqrt_sq he, sub_self]

/-- Chord bound: for `0 ≤ r_source ≤ r_earth` and `t ∈ [0, 1]` the sampled
point stays on or inside the circle, so its depth below the surface is
nonnegative. -/
theorem rayDepth_nonneg (rs ca e t : ℝ) (h0 : 0 ≤ rs) (hre : rs ≤ e)
    (ht0 : 0 ≤ t) (ht1 : t ≤ 1) : 0 ≤ rayDepth rs ca e t := by
  have he : 0 ≤ e := le_trans h0 hre
  have hsc := Real.sin_sq_add_cos_sq ca
  have hc1 : Real.cos ca ≤ 1 := Real.cos_le_one ca
  have h1 : 0 ≤ (1 - t) * ((e ^ 2 - rs ^ 2) + t * (e - rs) ^ 2) := by
    apply mul_nonneg (by linarith)
    apply add_nonneg
    · have : rs ^ 2 ≤ e ^ 2 := by nlinarith
      linarith
    · exact mul_nonneg ht0 (sq_nonneg _)
  have h2 : 0 ≤ 2 * t * (1 - t) * rs * e * (1 - Real.cos ca) := by
    apply mul_nonneg
    apply mul_nonneg
    apply mul_nonneg
    apply mul_nonneg
    · linarith
    · linarith
    · exact h0
    · exact he
    · linarith
  have hsc1 : t ^ 2 * e ^ 2 * (Real.sin ca ^ 2 + Real.cos ca ^ 2) = t ^ 2 * e ^ 2 := by
    rw [hsc, mul_one]
  have hkey : rayX rs ca e t ^ 2 + rayY rs ca e t ^ 2 ≤ e ^ 2 := by
    simp only [rayX, rayY, Real.cos_zero, Real.sin_zero, mul_one, mul_zero, zero_add,
      sub_zero]
    nlinarith [h1, h2, hsc1]
  have hle : Real.sqrt (rayX rs ca e t ^ 2 + rayY rs ca e t ^ 2) ≤ e :=
    (Real.sqrt_le_left he).mpr hkey
  simp only [rayDepth]
  linarith

/-- C10: the sampler ignores `source_depth`, `beam_angle` and `range_m`
completely — two calls agreeing on `r_source`, `central_angle`, `r_earth` and
`num_points` return identical profiles. -/
theorem C10_unused_params (sd₁ sd₂ ba₁ ba₂ rm₁ rm₂ rs ca e : ℝ) (n : ℕ) :
    calculate_ray_depth_profile sd₁ ba₁ rs rm₁ ca e n =
      calculate_ray_depth_profile sd₂ ba₂ rs rm₂ ca e n := rfl

/-- C1 as stated is false: called with an invalid `IntersectionResult`
(`range_m = -1`, `central_angle = 0`) the sampler still returns a profile
normally; no precondition is checked. -/
theorem C1_counterexample :
    ¬ (∀ (sd ba rs rm ca e : ℝ) (n : ℕ),
        (calculate_ray_depth_profile sd ba rs rm ca e n).isSome = true →
        (rm ≠ -1 ∧ 2 ≤ n)) := by
  intro h
  have hsome : (calculate_ray_depth_profile 100 0 1 (-1) 0 2 2).isSome = true := by
    rw [calculate_ray_depth_profile_eq 100 0 1 (-1) 0 2 (by norm_num)]
    rfl
  exact (h 100 0 1 (-1) 0 2 2 hsome).1 rfl

/-- C1 amended: the sampler performs no precondition check at all — for every
argument combination with `num_points ≥ 1` (so numpy's `argmax` does not raise
on an empty array) it returns a profile, valid intersection or not. -/
theorem C1_no_precondition_check (sd ba rs rm ca e : ℝ) (n : ℕ) (hn : 1 ≤ n) :
    (calculate_ray_depth_profile sd ba rs rm ca e n).isSome = true := by
  rw [calculate_ray_depth_profile_eq sd ba rs rm ca e hn]
  rfl

/-- Witness for the amended C1, at an invalid intersection (`range_m = -1`). -/
theorem C1_no_precondition_check_witness :
    (calculate_ray_depth_profile 100 0 6370908.8 (-1) 0 6371008.8 2).isSome = true :=
  C1_no_precondition_check 100 0 6370908.8 (-1) 0 6371008.8 2 (by norm_num)

/-- C4: for a valid query (`r_source = r_earth - source_depth`, `num_points ≥ 2`)
the profile has exactly `num_points` samples, its first depth equals
`source_depth`, and its last depth equals `0` — exactly, in real arithmetic. -/
theorem C4_profile_endpoints (sd ba rs rm ca e : ℝ) (n : ℕ) (hrs : rs = e - sd)
    (h0 : 0 ≤ rs) (he : 0 ≤ e) (hn : 2 ≤ n) :
    ∃ hs ds md mdr,
      calculate_ray_depth_profile sd ba rs rm ca e n = some (hs, ds, md, mdr) ∧
      ds.length = n ∧ hs.length = n ∧ ds.getD 0 0 = sd ∧ ds.getD (n - 1) 0 = 0 := by
  refine ⟨_, _, _, _, calculate_ray_depth_profile_eq sd ba rs rm ca e (by omega),
    ?_, ?_, ?_, ?_⟩
  · simp [depthList, linspace01]
  · simp [rangeList, linspace01]
  · rw [depthList_getD rs ca e n 0 (by omega)]
    norm_num
    rw [rayDepth_zero rs ca e h0, hrs]
    ring
  · rw [depthList_getD rs ca e n (n - 1) (by omega)]
    have hden : ((n : ℝ) - 1) ≠ 0 := by
      have : (2 : ℝ) ≤ (n : ℝ) := by exact_mod_cast hn
      linarith
    have hcast : ((n - 1 : ℕ) : ℝ) = (n : ℝ) - 1 := by
      have h1 : 1 ≤ n := by omega
      push_cast [h1]
      ring
    rw [hcast, div_self hden, rayDepth_one rs ca e he]

/-- Witness for C4 at `source_depth = 1`, `r_earth = 2`, `num_points = 2`. -/
theorem C4_profile_endpoints_witness :
    ∃ hs ds md mdr,
      calculate_ray_depth_profile 1 0 1 5 0 2 2 = some (hs, ds, md, mdr) ∧
      ds.length = 2 ∧ hs.length = 2 ∧ ds.getD 0 0 = 1 ∧ ds.getD (2 - 1) 0 = 0 :=
  C4_profile_endpoints 1 0 1 5 0 2 2 (by norm_num) (by norm_num) (by norm_num)
    (by norm_num)

/-- C5: for a valid query every sampled depth is nonnegative, and the reported
maximum depth is at least the source depth. -/
theorem C5_depths_nonneg (sd ba rs rm ca e : ℝ) (n : ℕ) (hrs : rs = e - sd)
    (h0 : 0 ≤ rs) (hre : rs ≤ e) (hn : 2 ≤ n) :
    ∃ hs ds md mdr,
      calculate_ray_depth_profile sd ba rs rm ca e n = some (hs, ds, md, mdr) ∧
      (∀ d ∈ ds, 0 ≤ d) ∧ sd ≤ md := by
  refine ⟨_, _, _, _, calculate_ray_depth_profile_eq sd ba rs rm ca e (by omega),
    ?_, ?_⟩
  · intro d hd
    simp only [depthList, List.mem_map] at hd
    obtain ⟨t, ht, rfl⟩ := hd
    obtain ⟨ht0, ht1⟩ := mem_linspace01 ht
    exact rayDepth_nonneg rs ca e t h0 hre ht0 ht1
  · have hmem : rayDepth rs ca e 0 ∈ depthList rs ca e n := by
      simp only [depthList, List.mem_map]
      refine ⟨0, ?_, rfl⟩
      simp only [linspace01, List.mem_map, List.mem_range]
      exact ⟨0, by omega, by norm_num⟩
    have hle := getD_argmax_ge (depthList rs ca e n) _ hmem
    rw [rayDepth_zero rs ca e h0] at hle
    have hsd : e - rs = sd := by rw [hrs]; ring
    linarith

/-- Witness for C5 at `source_depth = 1`, `r_earth = 2`, `num_points = 2`. -/
theorem C5_depths_nonneg_witness :
    ∃ hs ds md mdr,
      calculate_ray_depth_profile 1 0 1 5 0 2 2 = some (hs, ds, md, mdr) ∧
      (∀ d ∈ ds, 0 ≤ d) ∧ (1 : ℝ) ≤ md :=
  C5_depths_nonneg 1 0 1 5 0 2 2 (by norm_num) (by norm_num) (by norm_num)
    (by norm_num)

/-- On the open right half plane `arctan2` is the plain arctangent of the
slope. -/
theorem arctan2_pos_x (y x : ℝ) (hx : 0 < x) : arctan2 y x = Real.arctan (y / x) := by
  simp [arctan2, hx]

/-- The chord x-coordinate, written as a convex combination. -/
theorem rayX_eq (rs ca e t : ℝ) :
    rayX rs ca e t = (1 - t) * rs + t * (e * Real.cos ca) := by
  simp only [rayX, Real.cos_zero, mul_one]
  ring

/-- The chord y-coordinate, written in product form. -/
theorem rayY_eq (rs ca e t : ℝ) :
    rayY rs ca e t = t * (e * Real.sin ca) := by
  simp only [rayY, Real.sin_zero, mul_zero, zero_add, sub_zero]

/-- Core monotonicity of the flattened horizontal coordinate: as `t` grows
along the chord, the polar angle of the sampled point (hence the arc position
`horizontal_range`) does not decrease. -/
theorem rayRange_mono (rs ca e : ℝ) (h0 : 0 < rs) (hre : rs ≤ e)
    (hca0 : 0 ≤ ca) (hca1 : ca ≤ π / 2) (t₁ t₂ : ℝ)
    (ht0 : 0 ≤ t₁) (ht12 : t₁ ≤ t₂) (ht2 : t₂ ≤ 1) :
    rayRange rs ca e t₁ ≤ rayRange rs ca e t₂ := by
  have he : 0 < e := lt_of_lt_of_le h0 hre
  have hc0 : 0 ≤ Real.cos ca :=
    Real.cos_nonneg_of_mem_Icc ⟨by linarith [Real.pi_pos], hca1⟩
  have hs0 : 0 ≤ Real.sin ca :=
    Real.sin_nonneg_of_nonneg_of_le_pi hca0 (by linarith [Real.pi_pos])
  have ht1le : t₁ ≤ 1 := le_trans ht12 ht2
  have ht20 : 0 ≤ t₂ := le_trans ht0 ht12
  have hXn : ∀ t : ℝ, 0 ≤ t → t ≤ 1 → 0 ≤ rayX rs ca e t := by
    intro t ha hb
    rw [rayX_eq]
    have h1 : 0 ≤ (1 - t) * rs := mul_nonneg (by linarith) h0.le
    have h2 : 0 ≤ t * (e * Real.cos ca) := mul_nonneg ha (mul_nonneg he.le hc0)
    linarith
  simp only [rayRange]
  apply mul_le_mul_of_nonneg_left ?_ he.le
  rcases lt_or_le 0 (rayX rs ca e t₂) with hx2 | hx2
  · have hx1 : 0 < rayX rs ca e t₁ := by
      rcases lt_or_le t₁ 1 with hlt | hge
      · rw [rayX_eq]
        have h2 : 0 ≤ t₁ * (e * Real.cos ca) := mul_nonneg ht0 (mul_nonneg he.le hc0)
        nlinarith
      · have h11 : t₁ = 1 := le_antisymm ht1le hge
        have h21 : t₂ = 1 := le_antisymm ht2 (by rw [← h11]; exact ht12)
        rw [h11, ← h21]
        exact hx2
    rw [arctan2_pos_x _ _ hx1, arctan2_pos_x _ _ hx2]
    apply Real.arctan_strictMono.monotone
    rw [div_le_div_iff₀ hx1 hx2, rayX_eq, rayX_eq, rayY_eq, rayY_eq]
    nlinarith [mul_nonneg (mul_nonneg (mul_nonneg he.le hs0) h0.le)
      (sub_nonneg.mpr ht12)]
  · have hx2' : rayX rs ca e t₂ = 0 := le_antisymm hx2 (hXn t₂ ht20 ht2)
    have hXe : (1 - t₂) * rs + t₂ * (e * Real.cos ca) = 0 := by
      rw [← rayX_eq]
      exact hx2'
    have hA : 0 ≤ (1 - t₂) * rs := mul_nonneg (by linarith) h0.le
    have hB : 0 ≤ t₂ * (e * Real.cos ca) := mul_nonneg ht20 (mul_nonneg he.le hc0)
    have hA0 : (1 - t₂) * rs = 0 := by linarith
    have hB0 : t₂ * (e * Real.cos ca) = 0 := by linarith
    have ht21 : t₂ = 1 := by
      rcases mul_eq_zero.mp hA0 with h | h
      · linarith
      · exact absurd h (ne_of_gt h0)
    have hcos0 : Real.cos ca = 0 := by
      rw [ht21, one_mul] at hB0
      rcases mul_eq_zero.mp hB0 with h | h
      · exact absurd h (ne_of_gt he)
      · exact h
    have hsin1 : Real.sin ca = 1 := by
      have hsc := Real.sin_sq_add_cos_sq ca
      rw [hcos0] at hsc
      nlinarith
    have hy2 : rayY rs ca e t₂ = e := by
      rw [rayY_eq, ht21, hsin1]
      ring
    have hr2 : arctan2 (rayY rs ca e t₂) (rayX rs ca e t₂) = π / 2 := by
      rw [hx2', hy2]
      simp [arctan2, he, lt_irrefl]
    rw [hr2]
    rcases lt_or_le 0 (rayX rs ca e t₁) with hx1 | hx1
    · rw [arctan2_pos_x _ _ hx1]
      exact (Real.arctan_lt_pi_div_two _).le
    · have hx1' : rayX rs ca e t₁ = 0 := le_antisymm hx1 (hXn t₁ ht0 ht1le)
      have hXe1 : (1 - t₁) * rs + t₁ * (e * Real.cos ca) = 0 := by
        rw [← rayX_eq]
        exact hx1'
      have hA1 : 0 ≤ (1 - t₁) * rs := mul_nonneg (by linarith) h0.le
      have hB1 : 0 ≤ t₁ * (e * Real.cos ca) := mul_nonneg ht0 (mul_nonneg he.le hc0)
      have hA10 : (1 - t₁) * rs = 0 := by linarith
      have ht11 : t₁ = 1 := by
        rcases mul_eq_zero.mp hA10 with h | h
        · linarith
        · exact absurd h (ne_of_gt h0)
      have hy1 : rayY rs ca e t₁ = e := by
        rw [rayY_eq, ht11, hsin1]
        ring
      rw [hx1', hy1]
      simp [arctan2, he, lt_irrefl]

/-- C6: for a valid query the sequence of `horizontal_range` samples is
monotonically non-decreasing along the sample order. -/
theorem C6_ranges_monotone (sd ba rs rm ca e : ℝ) (n : ℕ) (h0 : 0 < rs)
    (hre : rs ≤ e) (hca0 : 0 ≤ ca) (hca1 : ca ≤ π / 2) (hn : 2 ≤ n) :
    ∃ hs ds md mdr,
      calculate_ray_depth_profile sd ba rs rm ca e n = some (hs, ds, md, mdr) ∧
      hs.Pairwise (· ≤ ·) := by
  refine ⟨_, _, _, _, calculate_ray_depth_profile_eq sd ba rs rm ca e (by omega), ?_⟩
  unfold rangeList
  rw [List.pairwise_map]
  refine (linspace01_pairwise n).imp ?_
  intro a b hab
  exact rayRange_mono rs ca e h0 hre hca0 hca1 a b hab.1 hab.2.1 hab.2.2

/-- Witness for C6 at `r_source = 1`, `central_angle = 0`, `r_earth = 2`,
`num_points = 2`. -/
theorem C6_ranges_monotone_witness :
    ∃ hs ds md mdr,
      calculate_ray_depth_profile 7 3 1 5 0 2 2 = some (hs, ds, md, mdr) ∧
      hs.Pairwise (· ≤ ·) :=
  C6_ranges_monotone 7 3 1 5 0 2 2 (by norm_num) (by norm_num) (by norm_num)
    (by linarith [Real.pi_pos]) (by norm_num)
